import Mathlib

/-!
Verification development for the `dobslit_senai_a3` package: a Grover-search
circuit builder (`GroverAlgorithm`) plus a result-formatting helper
(`organize_qiskit_result`), from `src/dobslit_senai_a3/__init__.py`.

The shallow embedding models the circuit as an explicit list of operations,
qubits as wire indices (the phase ancilla is wire 0; the i-th register
created by `create_qubit` is wire i+1), and classical bits as indices.
Python exceptions are modelled with `Except PyError`.  The semantics of the
classical-reversible gates (X, multi-controlled X) on computational basis
states is given by `applyOp`; Z/CZ/barriers are diagonal or no-ops on basis
values.
-/

/-- Python exceptions raised by the code or by the Qiskit SDK it calls:
`NotImplementedError` (abstract hooks), `CircuitError` (Qiskit
`add_register` on a duplicate register name), `IndexError` (list index out
of range), pandas `ValueError` (ragged columns). -/
inductive PyError where
  | notImplementedError
  | circuitError
  | indexError
  | valueError
deriving Repr, DecidableEq

/-- One circuit operation, as appended by the methods of `GroverAlgorithm`.
Qubits are wire indices; `Measure q c` measures qubit wire `q` into
classical bit `c`. -/
inductive Op where
  | H (q : Nat)
  | Z (q : Nat)
  | CZ (ctrl targ : Nat)
  | X (q : Nat)
  | MCX (ctrls : List Nat) (targ : Nat)
  | Barrier
  | Measure (q : Nat) (c : Nat)
deriving Repr, DecidableEq

/-- Whether an operation is a measurement. -/
def Op.isMeasure : Op → Bool
  | .Measure _ _ => true
  | _ => false

/-- A list of operations containing no measurement (the contract for the
gate sequences supplied by `build_search_space` / `revert_search_space`). -/
def noMeasure (l : List Op) : Bool :=
  l.all fun o => !o.isMeasure

/-- The mutable state of a `GroverAlgorithm` instance (lines 42-53):
the circuit's operation list, the names of all registers added to the
circuit (`self.circ`'s registers, used by Qiskit's duplicate-name check),
the `self.qubits`, `self.clbits` and `self.names` lists, and the wire of
the phase ancilla. -/
structure GroverState where
  ops : List Op
  regNames : List String
  qubits : List Nat
  clbits : List Nat
  names : List String
  phase_ancilla : Nat
deriving Repr, DecidableEq

/-- The state built by `GroverAlgorithm.__init__` (lines 42-52) just before
`self.prepare()` is called: the phase ancilla is allocated as wire 0, an H
gate is applied to it, and the three lists are empty. -/
def initState : GroverState :=
  { ops := [Op.H 0]
    regNames := ["phase_ancilla"]
    qubits := []
    clbits := []
    names := []
    phase_ancilla := 0 }

/-- Append a list of operations to the circuit (the effect of the
gate-adding methods on `self.circ`). -/
def addOps (g : GroverState) (l : List Op) : GroverState :=
  { g with ops := g.ops ++ l }

/-- `GroverAlgorithm.create_qubit` (lines 55-64): builds a 1-qubit register
named `q_<label>` and a classical register named `c_<label>` and adds both
to the circuit.  Qiskit's `QuantumCircuit.add_register` raises
`CircuitError` when a register with the same name already exists in the
circuit; that check is modelled here.  On success the new qubit wire is
`qubits.length + 1` (the ancilla occupies wire 0) and the new classical bit
is `clbits.length`, and the label is appended to `self.names`. -/
def create_qubit (g : GroverState) (label : String) : Except PyError (GroverState × Nat) :=
  let qname := "q_" ++ label
  let cname := "c_" ++ label
  if g.regNames.elem qname then
    Except.error PyError.circuitError
  else
    let regNames1 := g.regNames ++ [qname]
    if regNames1.elem cname then
      Except.error PyError.circuitError
    else
      let wire := g.qubits.length + 1
      Except.ok
        ({ g with
            regNames := regNames1 ++ [cname]
            qubits := g.qubits ++ [wire]
            clbits := g.clbits ++ [g.clbits.length]
            names := g.names ++ [label] }, wire)

/-- The overridable hooks of `GroverAlgorithm`.  A concrete search problem
supplies `prepare` (register setup) and the gate sequences appended by
`build_search_space` / `revert_search_space`; `none` means the hook is not
overridden, so the base-class method (which raises `NotImplementedError`,
lines 66-67, 105-111) is dispatched. -/
structure Hooks where
  prepareImpl : Option (GroverState → Except PyError GroverState)
  buildSearchSpaceImpl : Option (List Op)
  revertSearchSpaceImpl : Option (List Op)

/-- The hook table of the base class itself: nothing overridden. -/
def baseHooks : Hooks := ⟨none, none, none⟩

/-- Dispatch `self.prepare()`: the override if present, else the base
method `prepare` which raises `NotImplementedError` (lines 66-67). -/
def call_prepare (hk : Hooks) (g : GroverState) : Except PyError GroverState :=
  match hk.prepareImpl with
  | some f => f g
  | none => Except.error PyError.notImplementedError

/-- Dispatch `self.build_search_space()` (lines 105-107): the appended gate
sequence if overridden, else `NotImplementedError`. -/
def call_build_search_space (hk : Hooks) : Except PyError (List Op) :=
  match hk.buildSearchSpaceImpl with
  | some l => Except.ok l
  | none => Except.error PyError.notImplementedError

/-- Dispatch `self.revert_search_space()` (lines 109-111). -/
def call_revert_search_space (hk : Hooks) : Except PyError (List Op) :=
  match hk.revertSearchSpaceImpl with
  | some l => Except.ok l
  | none => Except.error PyError.notImplementedError

/-- `GroverAlgorithm.__init__` (lines 42-53): build `initState` and then
call `self.prepare()` on it. -/
def grover_init (hk : Hooks) : Except PyError GroverState :=
  call_prepare hk initState

/-- `GroverAlgorithm.logic_not` (lines 89-91): one X gate. -/
def logic_not_ops (target : Nat) : List Op :=
  [Op.X target]

/-- The gate sequence appended by `GroverAlgorithm.logic_and`
(lines 93-95): one multi-controlled X with the operands as controls. -/
def logic_and_ops (operands : List Nat) (target : Nat) : List Op :=
  [Op.MCX operands target]

/-- The gate sequence appended by `GroverAlgorithm.logic_or`
(lines 97-103): X on every operand, a multi-controlled X onto the target,
X on every operand again, then X on the target. -/
def logic_or_ops (operands : List Nat) (target : Nat) : List Op :=
  (operands.map Op.X) ++ [Op.MCX operands target] ++ (operands.map Op.X) ++ [Op.X target]

/-- `GroverAlgorithm.logic_and` as a state transformer. -/
def logic_and (g : GroverState) (operands : List Nat) (target : Nat) : GroverState :=
  addOps g (logic_and_ops operands target)

/-- `GroverAlgorithm.logic_or` as a state transformer. -/
def logic_or (g : GroverState) (operands : List Nat) (target : Nat) : GroverState :=
  addOps g (logic_or_ops operands target)

/-- Line 126 of `build_all`: the list of all created qubits except the
target, computed with Python `!=` on the register objects (Qiskit register
equality; distinct wires have distinct register names, so wire equality is
faithful).  This list is computed by the source and then never used. -/
def non_target_qubits (qubits : List Nat) (target : Nat) : List Nat :=
  qubits.filter fun q => q != target

/-- The diffusion-operator block of `build_all` (lines 127-133): X on every
created qubit, Z on the ancilla, a multi-controlled X on the ancilla
controlled by every created qubit, Z on the ancilla, X on every created
qubit again. -/
def diffusion_ops (qubits : List Nat) (anc : Nat) : List Op :=
  (qubits.map Op.X) ++ [Op.Z anc, Op.MCX qubits anc, Op.Z anc] ++ (qubits.map Op.X)

/-- One iteration of the loop in `build_all` (lines 115-133): barrier, the
search-space encoding, barrier, CZ between the target and the phase
ancilla, barrier, the inverse encoding, barrier, then the diffusion
block. -/
def grover_iteration_ops (qubits : List Nat) (anc : Nat) (bss rss : List Op) (target : Nat) :
    List Op :=
  [Op.Barrier] ++ bss ++ [Op.Barrier] ++ [Op.CZ target anc] ++ [Op.Barrier] ++ rss
    ++ [Op.Barrier] ++ diffusion_ops qubits anc

/-- The measurement block of `build_all` (lines 139-140):
`for i in range(len(self.names)): self.circ.measure(self.qubits[i], self.clbits[i])`. -/
def measure_ops (g : GroverState) : List Op :=
  (List.range g.names.length).map fun i => Op.Measure (g.qubits.getD i 0) (g.clbits.getD i 0)

/-- `GroverAlgorithm.build_all` (lines 113-140), with the gate sequences
appended by the two hooks passed as `bss` and `rss`: run the Grover
iteration `n` times, then barrier, one final search-space encoding,
barrier, and the measurements. -/
def build_all (g : GroverState) (bss rss : List Op) (target : Nat) : Nat → GroverState
  | 0 => addOps g ([Op.Barrier] ++ bss ++ [Op.Barrier] ++ measure_ops g)
  | n + 1 =>
    build_all (addOps g (grover_iteration_ops g.qubits g.phase_ancilla bss rss target))
      bss rss target n

/-- Action of one operation on a computational basis state (an assignment
of a Boolean value to every wire).  X flips its wire; a multi-controlled X
flips its target iff every control is true.  Z and CZ are diagonal (they
change no basis value) and barriers are no-ops. -/
def applyOp (σ : Nat → Bool) : Op → (Nat → Bool)
  | .X q => fun i => if i = q then !σ q else σ i
  | .MCX ctrls targ => fun i => if i = targ then xor (σ targ) (ctrls.all σ) else σ i
  | _ => σ

/-- Run a gate sequence on a basis state. -/
def evalOps (l : List Op) (σ : Nat → Bool) : Nat → Bool :=
  l.foldl applyOp σ

/-- Python `s.split(' ')` on a character list: splits at every single
space, keeping empty substrings, and yields `[""]` on the empty string. -/
def splitSpaceChars : List Char → List String
  | [] => [""]
  | c :: cs =>
    let rest := splitSpaceChars cs
    if c = ' ' then "" :: rest
    else String.mk (c :: (rest.headD "").toList) :: rest.tail

/-- Python `full_bit_string.split(' ')` (line 25). -/
def pySplitSpace (s : String) : List String :=
  splitSpaceChars s.toList

/-- The `out_dict` built by `organize_qiskit_result`: one value column per
register name (in the order of `registers_names`) plus the `$freq`
column. -/
structure OutDict where
  cols : List (List String)
  freq : List Nat
deriving Repr, DecidableEq

/-- Line 21: `out_dict = {key:[] for key in registers_names+['$freq']}`. -/
def initOutDict (names : List String) : OutDict :=
  { cols := names.map fun _ => [], freq := [] }

/-- Append `vals.get i` to `cols.get i` for every `i < vals.length`,
leaving the remaining columns unchanged — the effect of the loop
`for i in range(len(reg_bit_string)): out_dict[registers_names[i]].append(reg_data_list[-1-i])`
(lines 33-34) when `vals` is the reversed split list. -/
def appendAt : List (List String) → List String → List (List String)
  | cols, [] => cols
  | [], _ :: _ => []
  | c :: cs, v :: vs => (c ++ [v]) :: appendAt cs vs

/-- Process one `(full_bit_string, freq)` entry of the counts dict
(lines 23-36): split the key on spaces; if the split list is longer than
`registers_names` the loop indexes `registers_names` past its end and
Python raises `IndexError`; otherwise substring `i` counted from the end
of the split list is appended to the column of `registers_names[i]`, and
the count is appended to the `$freq` column. -/
def processEntry (names : List String) (d : OutDict) (e : String × Nat) :
    Except PyError OutDict :=
  let parts := pySplitSpace e.1
  if parts.length > names.length then
    Except.error PyError.indexError
  else
    Except.ok { cols := appendAt d.cols parts.reverse, freq := d.freq ++ [e.2] }

/-- The key loop of `organize_qiskit_result` (lines 23-36) from a given
`out_dict`: process the entries in order, propagating the first raised
exception. -/
def buildOutDictAux (names : List String) (d : OutDict) :
    List (String × Nat) → Except PyError OutDict
  | [] => Except.ok d
  | e :: rest =>
    match processEntry names d e with
    | Except.error err => Except.error err
    | Except.ok d1 => buildOutDictAux names d1 rest

/-- The whole key loop of `organize_qiskit_result` (lines 21-36), over the
counts dict represented as an association list with distinct keys in
insertion order. -/
def buildOutDict (names : List String) (counts : List (String × Nat)) :
    Except PyError OutDict :=
  buildOutDictAux names (initOutDict names) counts

/-- One row of the output table: the value of each register (positionally
matching the register-name list) and the `$freq` value. -/
structure Row where
  values : List String
  freq : Nat
deriving Repr, DecidableEq

/-- Read the rows out of the column dictionary (what
`pd.DataFrame(out_dict)` holds, row `j` collecting entry `j` of every
column). -/
def toRows (d : OutDict) : List Row :=
  (List.range d.freq.length).map fun j =>
    { values := d.cols.map fun c => c.getD j "", freq := d.freq.getD j 0 }

/-- Descending comparison on the `$freq` column, used to model
`sort_values('$freq', ascending=False)`.  pandas does not fix the relative
order of tied rows; the model uses a stable insertion sort, which is one
admissible order. -/
def rowGE (a b : Row) : Prop := b.freq ≤ a.freq

instance : DecidableRel rowGE := fun a b => Nat.decLe b.freq a.freq

instance : IsTotal Row rowGE := ⟨fun a b => Or.symm (Nat.le_total a.freq b.freq)⟩

instance : IsTrans Row rowGE := ⟨fun _ _ _ hab hbc => Nat.le_trans hbc hab⟩

/-- The output table: column names (`registers_names ++ ["$freq"]`, the
key order of `out_dict`) and the rows after sorting; the row index of
`reset_index(drop=True)` is the list position, dense from 0. -/
structure Table where
  cols : List String
  rows : List Row
deriving Repr, DecidableEq

/-- `organize_qiskit_result` (lines 9-38): build `out_dict` over all keys
(raising `IndexError` on a key that splits into more parts than there are
register names), construct the DataFrame — pandas raises `ValueError`
unless all columns have equal length, which fails when some key splits
into fewer parts than there are register names — then sort by `$freq`
descending and reset the index. -/
def organize_qiskit_result (counts : List (String × Nat)) (names : List String) :
    Except PyError Table :=
  match buildOutDict names counts with
  | Except.error e => Except.error e
  | Except.ok d =>
    if d.cols.all fun c => c.length == d.freq.length then
      Except.ok { cols := names ++ ["$freq"], rows := List.insertionSort rowGE (toRows d) }
    else
      Except.error PyError.valueError

/-- States of a `GroverAlgorithm` instance reachable by a concrete search
problem: start from `initState`, allocate registers with `create_qubit`,
and append measurement-free gates (`h`, `x`, `z`, `cz`, `mcx` and the
logic helpers all only append such operations). -/
inductive Reached : GroverState → Prop
  | init : Reached initState
  | create {g g' : GroverState} {l : String} {w : Nat} :
      Reached g → create_qubit g l = Except.ok (g', w) → Reached g'
  | gate {g : GroverState} {o : Op} :
      Reached g → o.isMeasure = false → Reached (addOps g [o])

/-- Structural invariant of reachable states: the three register lists are
aligned, the ancilla is wire 0 and no created qubit is the ancilla, the
circuit so far has no measurement, and every created label has its
`q_`-prefixed register name recorded in the circuit. -/
def GroverInv (g : GroverState) : Prop :=
  g.qubits.length = g.names.length ∧
  g.clbits.length = g.names.length ∧
  g.phase_ancilla = 0 ∧
  (∀ q ∈ g.qubits, q ≠ 0) ∧
  g.ops.filter Op.isMeasure = [] ∧
  (∀ l ∈ g.names, ("q_" ++ l) ∈ g.regNames)

/-! ## Helper lemmas -/

@[simp]
lemma addOps_ops (g : GroverState) (l : List Op) : (addOps g l).ops = g.ops ++ l := rfl

@[simp]
lemma addOps_qubits (g : GroverState) (l : List Op) : (addOps g l).qubits = g.qubits := rfl

@[simp]
lemma addOps_clbits (g : GroverState) (l : List Op) : (addOps g l).clbits = g.clbits := rfl

@[simp]
lemma addOps_names (g : GroverState) (l : List Op) : (addOps g l).names = g.names := rfl

@[simp]
lemma addOps_phase_ancilla (g : GroverState) (l : List Op) :
    (addOps g l).phase_ancilla = g.phase_ancilla := rfl

@[simp]
lemma measure_ops_addOps (g : GroverState) (l : List Op) :
    measure_ops (addOps g l) = measure_ops g := rfl

/-- The full operation list produced by `build_all`: the starting circuit,
`n` copies of the Grover iteration block, a barrier, the final
search-space encoding, a barrier, and the measurement block. -/
lemma build_all_ops_eq (bss rss : List Op) (target : Nat) :
    ∀ (n : Nat) (g : GroverState),
      (build_all g bss rss target n).ops
        = g.ops
          ++ (List.replicate n (grover_iteration_ops g.qubits g.phase_ancilla bss rss target)).flatten
          ++ [Op.Barrier] ++ bss ++ [Op.Barrier] ++ measure_ops g := by
  intro n
  induction n with
  | zero =>
    intro g
    simp [build_all, List.append_assoc]
  | succ n ih =>
    intro g
    rw [build_all, ih]
    simp [List.replicate_succ, List.append_assoc]

/-! ## Claim theorems -/

/-- C9: on a `GroverAlgorithm` whose concrete subclass does not override
them, each of the abstract hooks `prepare`, `build_search_space` and
`revert_search_space` fails with `NotImplementedError` when called, with no
default or no-op fallback; and since `__init__` calls `prepare`,
constructing the base class without overriding `prepare` fails. -/
theorem abstract_hooks_not_implemented :
    (∀ g : GroverState, call_prepare baseHooks g = Except.error PyError.notImplementedError)
    ∧ call_build_search_space baseHooks = Except.error PyError.notImplementedError
    ∧ call_revert_search_space baseHooks = Except.error PyError.notImplementedError
    ∧ grover_init baseHooks = Except.error PyError.notImplementedError :=
  ⟨fun _ => rfl, rfl, rfl, rfl⟩

/-- C3, counterexample: with created qubits `[1, 2]` and target qubit `1`,
the flip-pattern of the diffusion step of a Grover iteration contains
`X 1`, i.e. it acts on the target register even though the target is
excluded from `non_target_qubits`; the claim that the flip-pattern gates
act only on the non-target registers is false. -/
theorem diffusion_flip_hits_target_cex :
    Op.X 1 ∈ grover_iteration_ops [1, 2] 0 [] [] 1
    ∧ (1 : Nat) ∉ non_target_qubits [1, 2] 1 := by
  decide

/-- C3, amended: `build_all` computes `non_target_qubits`, which does
exclude the designated target register (by the register equality `!=` of
line 126), but that list is dead code: the diffusion step's flip-pattern
applies X to every created register, the target included. -/
theorem non_target_exclusion_and_flip_pattern (qubits : List Nat) (anc target : Nat) :
    (∀ q ∈ non_target_qubits qubits target, q ≠ target)
    ∧ non_target_qubits qubits target = qubits.filter (fun q => q != target)
    ∧ (∀ q ∈ qubits, Op.X q ∈ diffusion_ops qubits anc) := by
  refine ⟨?_, rfl, ?_⟩
  · intro q hq
    have h := List.of_mem_filter hq
    simpa using h
  · intro q hq
    simp [diffusion_ops, List.mem_append]
    exact hq

/-- Witness for the amended C3 theorem at qubits `[1, 2]`, ancilla `0`,
target `1`. -/
theorem non_target_exclusion_and_flip_pattern_witness :
    (2 : Nat) ≠ 1 ∧ Op.X 1 ∈ diffusion_ops [1, 2] 0 :=
  ⟨(non_target_exclusion_and_flip_pattern [1, 2] 0 1).1 2 (by decide),
   (non_target_exclusion_and_flip_pattern [1, 2] 0 1).2.2 1 (by decide)⟩

/-- C1: for every state, hook gate sequences and `n ≥ 0`, `build_all`
appends exactly `n` Grover iteration blocks — each consisting, in order,
of the search-space encoding, the controlled-Z between the target qubit
and the phase ancilla, the inverse encoding and the diffusion block
(`grover_iteration_ops`, with the source's barriers in between) — followed
by one final search-space encoding and the measurement block; with
`n = 0` the circuit only gets the one search-space encoding and the
measurements. -/
theorem grover_build_all_sequence (g : GroverState) (bss rss : List Op) (target n : Nat) :
    (build_all g bss rss target n).ops
      = g.ops
        ++ (List.replicate n (grover_iteration_ops g.qubits g.phase_ancilla bss rss target)).flatten
        ++ [Op.Barrier] ++ bss ++ [Op.Barrier] ++ measure_ops g
    ∧ (build_all g bss rss target 0).ops
      = g.ops ++ [Op.Barrier] ++ bss ++ [Op.Barrier] ++ measure_ops g := by
  refine ⟨build_all_ops_eq bss rss target n g, ?_⟩
  have h := build_all_ops_eq bss rss target 0 g
  simpa using h

lemma evalOps_append (a b : List Op) (σ : Nat → Bool) :
    evalOps (a ++ b) σ = evalOps b (evalOps a σ) := by
  simp [evalOps, List.foldl_append]

lemma evalOps_nil (σ : Nat → Bool) : evalOps [] σ = σ := rfl

lemma evalOps_singleton (o : Op) (σ : Nat → Bool) : evalOps [o] σ = applyOp σ o := rfl

lemma evalOps_cons (o : Op) (l : List Op) (σ : Nat → Bool) :
    evalOps (o :: l) σ = evalOps l (applyOp σ o) := rfl

/-- Effect of the X-on-every-operand block on a basis state: every operand
wire is flipped once, every other wire is untouched (this needs the
operand list to have no duplicates; Qiskit rejects duplicate qubit
arguments anyway). -/
lemma evalOps_map_X (operands : List Nat) (hnd : operands.Nodup) (σ : Nat → Bool) (i : Nat) :
    evalOps (operands.map Op.X) σ i = if i ∈ operands then !σ i else σ i := by
  induction operands generalizing σ with
  | nil => simp [evalOps]
  | cons o os ih =>
    have ho : o ∉ os := (List.nodup_cons.mp hnd).1
    have hos : os.Nodup := (List.nodup_cons.mp hnd).2
    have hstep : evalOps ((o :: os).map Op.X) σ = evalOps (os.map Op.X) (applyOp σ (Op.X o)) := by
      simp [evalOps, List.foldl_cons]
    rw [hstep, ih hos]
    by_cases hio : i = o
    · subst hio
      simp [applyOp, ho]
    · simp [applyOp, hio, List.mem_cons]

lemma all_congr_mem {l : List Nat} {f g : Nat → Bool} (h : ∀ x ∈ l, f x = g x) :
    l.all f = l.all g := by
  induction l with
  | nil => rfl
  | cons a as ih =>
    simp only [List.all_cons]
    rw [h a (List.mem_cons_self a as), ih fun x hx => h x (List.mem_cons_of_mem a hx)]

lemma not_all_not_eq_any (l : List Nat) (p : Nat → Bool) :
    (!l.all fun x => !p x) = l.any p := by
  induction l with
  | nil => rfl
  | cons a as ih => simp [List.all_cons, List.any_cons, Bool.not_and, ih]

/-- C4: with the target starting at false, the sequence appended by
`logic_or` sets the target to true iff at least one operand is true, for
every assignment of the operand wires, and leaves every wire other than
the target (the operands in particular) unchanged.  The operands must be
pairwise distinct and distinct from the target, as required for the
multi-controlled X. -/
theorem logic_or_correct (g : GroverState) (operands : List Nat) (target : Nat)
    (σ : Nat → Bool) (hnd : operands.Nodup) (ht : target ∉ operands)
    (h0 : σ target = false) :
    (logic_or g operands target).ops = g.ops ++ logic_or_ops operands target
    ∧ evalOps (logic_or_ops operands target) σ target = operands.any σ
    ∧ (∀ q, q ≠ target → evalOps (logic_or_ops operands target) σ q = σ q) := by
  have hsplit : ∀ i, evalOps (logic_or_ops operands target) σ i
      = applyOp
          (evalOps (operands.map Op.X)
            (applyOp (evalOps (operands.map Op.X) σ) (Op.MCX operands target)))
          (Op.X target) i := by
    intro i
    simp [logic_or_ops, evalOps_append, evalOps_singleton, evalOps_cons, evalOps_nil]
  set σ1 := evalOps (operands.map Op.X) σ with hσ1
  set σ2 := applyOp σ1 (Op.MCX operands target) with hσ2
  set σ3 := evalOps (operands.map Op.X) σ2 with hσ3
  have h1 : ∀ i, σ1 i = if i ∈ operands then !σ i else σ i := fun i => evalOps_map_X _ hnd σ i
  have h2t : σ2 target = operands.all σ1 := by
    have : σ1 target = false := by rw [h1]; simp [ht, h0]
    simp [hσ2, applyOp, this]
  have h2other : ∀ i, i ≠ target → σ2 i = σ1 i := by
    intro i hi; simp [hσ2, applyOp, hi]
  have h3 : ∀ i, σ3 i = if i ∈ operands then !σ2 i else σ2 i := fun i => evalOps_map_X _ hnd σ2 i
  refine ⟨rfl, ?_, ?_⟩
  · -- target value
    rw [hsplit target]
    have h3t : σ3 target = σ2 target := by rw [h3]; simp [ht]
    have hall : operands.all σ1 = operands.all fun q => !σ q := by
      apply all_congr_mem
      intro x hx; rw [h1]; simp [hx]
    have hx : applyOp σ3 (Op.X target) target = !σ3 target := by simp [applyOp]
    rw [hx, h3t, h2t, hall, not_all_not_eq_any]
  · -- every other wire
    intro q hq
    rw [hsplit q]
    have h4 : applyOp σ3 (Op.X target) q = σ3 q := by simp [applyOp, hq]
    rw [h4, h3]
    by_cases hqo : q ∈ operands
    · have : σ2 q = σ1 q := h2other q hq
      rw [if_pos hqo, this, h1, if_pos hqo, Bool.not_not]
    · rw [if_neg hqo, h2other q hq, h1, if_neg hqo]

/-- Witness for C4 at operands `[1, 2]`, target `3`, with operand 1 true
and operand 2 false. -/
theorem logic_or_correct_witness :
    (logic_or initState [1, 2] 3).ops = initState.ops ++ logic_or_ops [1, 2] 3
    ∧ evalOps (logic_or_ops [1, 2] 3) (fun i => i == 1) 3 = [1, 2].any (fun i => i == 1)
    ∧ (∀ q, q ≠ 3 → evalOps (logic_or_ops [1, 2] 3) (fun i => i == 1) q = (fun i => i == 1) q) :=
  logic_or_correct initState [1, 2] 3 (fun i => i == 1) (by decide) (by decide) (by decide)

/-- C5: with the target starting at false, the sequence appended by
`logic_and` (a single multi-controlled X) sets the target to true iff all
operands are true, for every assignment of the operand wires. -/
theorem logic_and_correct (g : GroverState) (operands : List Nat) (target : Nat)
    (σ : Nat → Bool) (h0 : σ target = false) :
    (logic_and g operands target).ops = g.ops ++ logic_and_ops operands target
    ∧ evalOps (logic_and_ops operands target) σ target = operands.all σ := by
  refine ⟨rfl, ?_⟩
  simp [logic_and_ops, evalOps_singleton, applyOp, h0]

/-- Witness for C5 at operands `[1, 2]`, target `3`, with both operands
true. -/
theorem logic_and_correct_witness :
    (logic_and initState [1, 2] 3).ops = initState.ops ++ logic_and_ops [1, 2] 3
    ∧ evalOps (logic_and_ops [1, 2] 3) (fun i => i != 3) 3 = [1, 2].all (fun i => i != 3) :=
  logic_and_correct initState [1, 2] 3 (fun i => i != 3) (by decide)

/-- Every reachable `GroverAlgorithm` state satisfies the structural
invariant. -/
lemma reached_inv {g : GroverState} (h : Reached g) : GroverInv g := by
  induction h with
  | init =>
    refine ⟨rfl, rfl, rfl, ?_, rfl, ?_⟩ <;> simp [initState]
  | @create g g' l w hr heq ih =>
    obtain ⟨h1, h2, h3, h4, h5, h6⟩ := ih
    simp only [create_qubit] at heq
    split at heq
    · simp at heq
    · split at heq
      · simp at heq
      · rw [Except.ok.injEq, Prod.mk.injEq] at heq
        obtain ⟨hg', hw⟩ := heq
        subst hg'
        refine ⟨by simp [h1], by simp [h2], h3, ?_, h5, ?_⟩
        · intro q hq'
          rcases List.mem_append.mp hq' with h' | h'
          · exact h4 q h'
          · simp at h'
            omega
        · intro l' hl'
          rcases List.mem_append.mp hl' with h' | h'
          · exact List.mem_append_left _ (List.mem_append_left _ (h6 l' h'))
          · simp at h'
            subst h'
            simp
  | @gate g o hr hm ih =>
    obtain ⟨h1, h2, h3, h4, h5, h6⟩ := ih
    refine ⟨h1, h2, h3, h4, ?_, h6⟩
    simp [List.filter_append, List.filter_cons, h5, hm]

/-- C8: on every reachable instance on which `create_qubit` was already
called with label `l` (so `l` is in `self.names`), a second call
`create_qubit(l)` fails: the quantum register `q_<l>` already exists in
the circuit, so Qiskit's `add_register` raises `CircuitError` instead of
allocating a second register pair under the same name. -/
theorem create_qubit_duplicate_fails (g : GroverState) (l : String)
    (hg : Reached g) (hl : l ∈ g.names) :
    create_qubit g l = Except.error PyError.circuitError := by
  have h6 := (reached_inv hg).2.2.2.2.2
  have hmem : ("q_" ++ l) ∈ g.regNames := h6 l hl
  simp [create_qubit, hmem]

/-- Witness for C8: after `create_qubit("a")` on a fresh instance, calling
`create_qubit("a")` again raises `CircuitError`. -/
theorem create_qubit_duplicate_fails_witness :
    create_qubit ⟨[Op.H 0], ["phase_ancilla", "q_a", "c_a"], [1], [0], ["a"], 0⟩ "a"
      = Except.error PyError.circuitError :=
  create_qubit_duplicate_fails _ "a" (Reached.create Reached.init rfl) (by simp)

lemma noMeasure_filter (l : List Op) (h : noMeasure l = true) :
    l.filter Op.isMeasure = [] := by
  rw [List.filter_eq_nil_iff]
  intro a ha
  have := List.all_eq_true.mp h a ha
  simp at this
  simp [this]

lemma filter_map_X (qs : List Nat) : (qs.map Op.X).filter Op.isMeasure = [] := by
  rw [List.filter_eq_nil_iff]
  intro a ha
  obtain ⟨q, _, rfl⟩ := List.mem_map.mp ha
  simp [Op.isMeasure]

/-- A Grover iteration block contains no measurement when the two hook
sequences contain none. -/
lemma filter_iteration (qs : List Nat) (anc : Nat) (bss rss : List Op) (t : Nat)
    (hb : noMeasure bss = true) (hr : noMeasure rss = true) :
    (grover_iteration_ops qs anc bss rss t).filter Op.isMeasure = [] := by
  simp only [grover_iteration_ops, diffusion_ops, List.filter_append,
    noMeasure_filter bss hb, noMeasure_filter rss hr, filter_map_X]
  rfl

lemma filter_flatten_replicate (n : Nat) (l : List Op)
    (h : l.filter Op.isMeasure = []) :
    ((List.replicate n l).flatten).filter Op.isMeasure = [] := by
  induction n with
  | zero => rfl
  | succ n ih => simp [List.replicate_succ, List.filter_append, h, ih]

lemma filter_measure_ops (g : GroverState) :
    (measure_ops g).filter Op.isMeasure = measure_ops g := by
  rw [List.filter_eq_self]
  intro a ha
  obtain ⟨i, _, rfl⟩ := List.mem_map.mp ha
  rfl

lemma range_map_measure : ∀ (qs cs : List Nat), qs.length = cs.length →
    (List.range qs.length).map (fun i => Op.Measure (qs.getD i 0) (cs.getD i 0))
      = List.zipWith Op.Measure qs cs := by
  intro qs
  induction qs with
  | nil => intro cs h; simp
  | cons q qs ih =>
    intro cs h
    cases cs with
    | nil => simp at h
    | cons c cs =>
      simp only [List.length_cons] at h
      have h' : qs.length = cs.length := by omega
      simp only [List.length_cons, List.range_succ_eq_map, List.map_cons, List.map_map,
        List.zipWith_cons_cons]
      congr 1
      rw [← ih cs h']
      simp [Function.comp]

lemma measure_ops_eq_zipWith (g : GroverState)
    (h1 : g.qubits.length = g.names.length) (h2 : g.clbits.length = g.names.length) :
    measure_ops g = List.zipWith Op.Measure g.qubits g.clbits := by
  unfold measure_ops
  rw [← h1]
  exact range_map_measure g.qubits g.clbits (by omega)

lemma mem_zipWith_measure : ∀ (qs cs : List Nat) (q c : Nat),
    Op.Measure q c ∈ List.zipWith Op.Measure qs cs → q ∈ qs := by
  intro qs
  induction qs with
  | nil => intro cs q c h; simp at h
  | cons a as ih =>
    intro cs q c h
    cases cs with
    | nil => simp at h
    | cons b bs =>
      simp only [List.zipWith_cons_cons, List.mem_cons] at h
      rcases h with h | h
      · injection h with hq hc
        simp [hq]
      · exact List.mem_cons_of_mem _ (ih bs q c h)

lemma not_mem_of_filter_nil {l : List Op} (h : l.filter Op.isMeasure = []) (q c : Nat) :
    Op.Measure q c ∉ l := by
  intro hmem
  have := (List.filter_eq_nil_iff.mp h) _ hmem
  simp [Op.isMeasure] at this

/-- C2: for every reachable instance with `k` created registers and every
`n ≥ 0`, provided the hook gate sequences contain no measurement (their
contract), the circuit assembled by `build_all` contains exactly `k`
measurement operations — the i-th one measuring the i-th created qubit
register into its paired classical register, in declaration order — and
the phase ancilla is never measured. -/
theorem grover_build_all_measurements (g : GroverState) (bss rss : List Op)
    (target n : Nat) (hg : Reached g)
    (hb : noMeasure bss = true) (hr : noMeasure rss = true) :
    (build_all g bss rss target n).ops.filter Op.isMeasure
        = List.zipWith Op.Measure g.qubits g.clbits
    ∧ ((build_all g bss rss target n).ops.filter Op.isMeasure).length = g.names.length
    ∧ (∀ q c, Op.Measure q c ∈ (build_all g bss rss target n).ops → q ≠ g.phase_ancilla) := by
  obtain ⟨h1, h2, h3, h4, h5, h6⟩ := reached_inv hg
  have hops := build_all_ops_eq bss rss target n g
  have hfilter : (build_all g bss rss target n).ops.filter Op.isMeasure = measure_ops g := by
    rw [hops]
    simp only [List.filter_append, h5,
      filter_flatten_replicate n _ (filter_iteration g.qubits g.phase_ancilla bss rss target hb hr),
      noMeasure_filter bss hb, filter_measure_ops]
    rfl
  have hzip := measure_ops_eq_zipWith g h1 h2
  refine ⟨by rw [hfilter, hzip], ?_, ?_⟩
  · rw [hfilter, hzip, List.length_zipWith, h1, h2, Nat.min_self]
  · intro q c hmem
    rw [hops] at hmem
    simp only [List.append_assoc, List.mem_append] at hmem
    have hiter := filter_flatten_replicate n _
      (filter_iteration g.qubits g.phase_ancilla bss rss target hb hr)
    rcases hmem with h | h | h | h | h | h
    · exact absurd h (not_mem_of_filter_nil h5 q c)
    · exact absurd h (not_mem_of_filter_nil hiter q c)
    · simp at h
    · exact absurd h (not_mem_of_filter_nil (noMeasure_filter bss hb) q c)
    · simp at h
    · have : q ∈ g.qubits := mem_zipWith_measure g.qubits g.clbits q c (by rwa [← hzip])
      rw [h3]
      exact h4 q this

/-- Witness for C2: one register (`create_qubit("a")` on a fresh
instance), empty hooks, one iteration. -/
theorem grover_build_all_measurements_witness :
    (build_all ⟨[Op.H 0], ["phase_ancilla", "q_a", "c_a"], [1], [0], ["a"], 0⟩
        [] [] 1 1).ops.filter Op.isMeasure = List.zipWith Op.Measure [1] [0]
    ∧ ((build_all ⟨[Op.H 0], ["phase_ancilla", "q_a", "c_a"], [1], [0], ["a"], 0⟩
        [] [] 1 1).ops.filter Op.isMeasure).length = (["a"] : List String).length
    ∧ (∀ q c, Op.Measure q c ∈ (build_all ⟨[Op.H 0], ["phase_ancilla", "q_a", "c_a"],
        [1], [0], ["a"], 0⟩ [] [] 1 1).ops → q ≠ 0) :=
  grover_build_all_measurements _ [] [] 1 1 (Reached.create Reached.init rfl) rfl rfl

lemma appendAt_length (cols : List (List String)) : ∀ (vals : List String),
    (appendAt cols vals).length = cols.length := by
  induction cols with
  | nil => intro vals; cases vals <;> rfl
  | cons c cs ih =>
    intro vals
    cases vals with
    | nil => rfl
    | cons v vs => simp [appendAt, ih vs]

lemma mem_appendAt_length (n : Nat) (cols : List (List String)) : ∀ (vals : List String),
    vals.length = cols.length → (∀ c ∈ cols, c.length = n) →
    ∀ c ∈ appendAt cols vals, c.length = n + 1 := by
  induction cols with
  | nil =>
    intro vals h1 h2 c hc
    cases vals with
    | nil => simp [appendAt] at hc
    | cons v vs => simp at h1
  | cons a as ih =>
    intro vals h1 h2 c hc
    cases vals with
    | nil => simp at h1
    | cons v vs =>
      simp only [appendAt, List.mem_cons] at hc
      rcases hc with rfl | hc
      · simp [h2 a (List.mem_cons_self a as)]
      · exact ih vs (by simpa using h1)
          (fun c' hc' => h2 c' (List.mem_cons_of_mem a hc')) c hc

lemma map_getD_appendAt_lt (n j : Nat) (hj : j < n) (cols : List (List String)) :
    ∀ (vals : List String),
    vals.length = cols.length → (∀ c ∈ cols, c.length = n) →
    (appendAt cols vals).map (fun c => c.getD j "") = cols.map (fun c => c.getD j "") := by
  induction cols with
  | nil => intro vals h1 h2; cases vals <;> rfl
  | cons a as ih =>
    intro vals h1 h2
    cases vals with
    | nil => simp at h1
    | cons v vs =>
      simp only [appendAt, List.map_cons]
      congr 1
      · have ha : a.length = n := h2 a (List.mem_cons_self a as)
        exact List.getD_append a [v] "" j (by omega)
      · exact ih vs (by simpa using h1) fun c hc => h2 c (List.mem_cons_of_mem a hc)

lemma map_getD_appendAt_last (n : Nat) (cols : List (List String)) :
    ∀ (vals : List String),
    vals.length = cols.length → (∀ c ∈ cols, c.length = n) →
    (appendAt cols vals).map (fun c => c.getD n "") = vals := by
  induction cols with
  | nil =>
    intro vals h1 h2
    cases vals with
    | nil => rfl
    | cons v vs => simp at h1
  | cons a as ih =>
    intro vals h1 h2
    cases vals with
    | nil => simp at h1
    | cons v vs =>
      simp only [appendAt, List.map_cons]
      congr 1
      · have ha : a.length = n := h2 a (List.mem_cons_self a as)
        rw [List.getD_append_right a [v] "" n (by omega), ha]
        simp
      · exact ih vs (by simpa using h1) fun c hc => h2 c (List.mem_cons_of_mem a hc)

/-- Processing one entry appends exactly one row (with the reversed split
as its values) to the rows held by the column dictionary. -/
lemma toRows_append (d : OutDict) (vals : List String) (f : Nat)
    (hlen : vals.length = d.cols.length)
    (hrect : ∀ c ∈ d.cols, c.length = d.freq.length) :
    toRows ⟨appendAt d.cols vals, d.freq ++ [f]⟩ = toRows d ++ [⟨vals, f⟩] := by
  unfold toRows
  simp only [List.length_append, List.length_cons, List.length_nil, Nat.zero_add]
  rw [List.range_succ, List.map_append]
  congr 1
  · apply List.map_congr_left
    intro j hj
    have hjlt : j < d.freq.length := List.mem_range.mp hj
    have hv : (appendAt d.cols vals).map (fun c => c.getD j "")
        = d.cols.map (fun c => c.getD j "") :=
      map_getD_appendAt_lt d.freq.length j hjlt d.cols vals hlen hrect
    have hf : (d.freq ++ [f]).getD j 0 = d.freq.getD j 0 :=
      List.getD_append d.freq [f] 0 j hjlt
    simp only [hv, hf]
  · have hv : (appendAt d.cols vals).map (fun c => c.getD d.freq.length "") = vals :=
      map_getD_appendAt_last d.freq.length d.cols vals hlen hrect
    have hf : (d.freq ++ [f]).getD d.freq.length 0 = f := by
      rw [List.getD_append_right d.freq [f] 0 d.freq.length (Nat.le_refl _)]
      simp
    simp only [List.map_cons, List.map_nil, hv, hf]

lemma buildOutDictAux_cons_ok (names : List String) (d : OutDict) (e : String × Nat)
    (rest : List (String × Nat)) (d1 : OutDict)
    (h : processEntry names d e = Except.ok d1) :
    buildOutDictAux names d (e :: rest) = buildOutDictAux names d1 rest := by
  simp only [buildOutDictAux, h]

/-- Running the key loop over well-formed entries succeeds, keeps the
dictionary rectangular, and appends one row per entry, each row carrying
the reversed split of its key. -/
lemma buildOutDictAux_spec (names : List String) :
    ∀ (counts : List (String × Nat)) (d : OutDict),
      d.cols.length = names.length →
      (∀ c ∈ d.cols, c.length = d.freq.length) →
      (∀ p ∈ counts, (pySplitSpace p.1).length = names.length) →
      ∃ d2, buildOutDictAux names d counts = Except.ok d2
        ∧ d2.cols.length = names.length
        ∧ (∀ c ∈ d2.cols, c.length = d2.freq.length)
        ∧ toRows d2 = toRows d
            ++ counts.map (fun p => { values := (pySplitSpace p.1).reverse, freq := p.2 }) := by
  intro counts
  induction counts with
  | nil =>
    intro d hα hβ hγ
    exact ⟨d, rfl, hα, hβ, by simp⟩
  | cons e rest ih =>
    intro d hα hβ hγ
    have he : (pySplitSpace e.1).length = names.length := hγ e (List.mem_cons_self e rest)
    have hnot : ¬ (pySplitSpace e.1).length > names.length := by omega
    have hstep : processEntry names d e
        = Except.ok ⟨appendAt d.cols (pySplitSpace e.1).reverse, d.freq ++ [e.2]⟩ := by
      simp [processEntry, hnot]
    have hlen : (pySplitSpace e.1).reverse.length = d.cols.length := by
      simp [he, hα]
    have hα1 : (appendAt d.cols (pySplitSpace e.1).reverse).length = names.length := by
      rw [appendAt_length]
      exact hα
    have hβ1 : ∀ c ∈ appendAt d.cols (pySplitSpace e.1).reverse,
        c.length = (d.freq ++ [e.2]).length := by
      intro c hc
      have := mem_appendAt_length d.freq.length d.cols _ hlen hβ c hc
      simp [this]
    obtain ⟨d2, hfold, k1, k2, k3⟩ :=
      ih ⟨appendAt d.cols (pySplitSpace e.1).reverse, d.freq ++ [e.2]⟩ hα1 hβ1
        (fun p hp => hγ p (List.mem_cons_of_mem e hp))
    refine ⟨d2, ?_, k1, k2, ?_⟩
    · rw [buildOutDictAux_cons_ok names d e rest _ hstep]
      exact hfold
    · rw [k3, toRows_append d _ e.2 hlen hβ]
      simp

/-- C6: for every counts mapping (an association list with the distinct
keys of the Python dict, in insertion order) whose keys each split on the
space separator into exactly one substring per register name,
`organize_qiskit_result` returns the table whose columns are the register
names plus `$freq`, with exactly one row per distinct key — the value of
`register_names[i]` being substring `i` counted from the end of the split
list, i.e. each row's value list is the reversed split of its key — sorted
by `$freq` descending, the row index being the dense 0-based list
position. -/
theorem organize_qiskit_result_spec (counts : List (String × Nat)) (names : List String)
    (_hkeys : (counts.map Prod.fst).Nodup)
    (hwf : ∀ p ∈ counts, (pySplitSpace p.1).length = names.length) :
    ∃ t, organize_qiskit_result counts names = Except.ok t
      ∧ t.cols = names ++ ["$freq"]
      ∧ t.rows.length = counts.length
      ∧ t.rows.Perm
          (counts.map fun p => { values := (pySplitSpace p.1).reverse, freq := p.2 })
      ∧ t.rows.Pairwise (fun a b => b.freq ≤ a.freq) := by
  obtain ⟨d2, hfold, k1, k2, k3⟩ := buildOutDictAux_spec names counts (initOutDict names)
    (by simp [initOutDict]) (by simp [initOutDict]) hwf
  have hrows0 : toRows (initOutDict names) = [] := by simp [toRows, initOutDict]
  rw [hrows0, List.nil_append] at k3
  have hrect : (d2.cols.all fun c => c.length == d2.freq.length) = true := by
    rw [List.all_eq_true]
    intro c hc
    simpa using k2 c hc
  have hperm : (List.insertionSort rowGE (toRows d2)).Perm (toRows d2) :=
    List.perm_insertionSort rowGE _
  refine ⟨{ cols := names ++ ["$freq"], rows := List.insertionSort rowGE (toRows d2) },
    ?_, rfl, ?_, ?_, ?_⟩
  · simp [organize_qiskit_result, buildOutDict, hfold, hrect]
  · rw [hperm.length_eq, k3, List.length_map]
  · exact k3 ▸ hperm
  · exact List.sorted_insertionSort rowGE (toRows d2)

/-- Witness for C6 on the two-key input
`{"1 1": 10, "0 0": 20}` with register names `["x", "y"]`. -/
theorem organize_qiskit_result_spec_witness :
    ∃ t, organize_qiskit_result [("1 1", 10), ("0 0", 20)] ["x", "y"] = Except.ok t
      ∧ t.cols = ["x", "y"] ++ ["$freq"]
      ∧ t.rows.length = ([("1 1", 10), ("0 0", 20)] : List (String × Nat)).length
      ∧ t.rows.Perm
          ([("1 1", 10), ("0 0", 20)].map
            fun p => { values := (pySplitSpace p.1).reverse, freq := p.2 })
      ∧ t.rows.Pairwise (fun a b => b.freq ≤ a.freq) :=
  organize_qiskit_result_spec [("1 1", 10), ("0 0", 20)] ["x", "y"] (by decide) (by decide)

/-- C7, counterexample: on counts `{"1 0": 700, "0 1": 324}` with register
names `["b", "a"]`, the rows are not `(b="1", a="0", 700)` then
`(b="0", a="1", 324)` (values listed in the column order `b, a`): the
claim has the per-row register values swapped. -/
theorem organize_example_cex :
    (organize_qiskit_result [("1 0", 700), ("0 1", 324)] ["b", "a"]).toOption.map Table.rows
      ≠ some [{ values := ["1", "0"], freq := 700 }, { values := ["0", "1"], freq := 324 }] := by
  decide

/-- C7, amended: on counts `{"1 0": 700, "0 1": 324}` with register names
`["b", "a"]`, the result has rows `(b="0", a="1", $freq=700)` then
`(b="1", a="0", $freq=324)`, in that order with dense 0-based row indices:
`registers_names[i]` receives substring `i` counted from the end of the
split, so for key `"1 0"` register `b` gets `"0"` and register `a` gets
`"1"`. -/
theorem organize_example_rows :
    organize_qiskit_result [("1 0", 700), ("0 1", 324)] ["b", "a"]
      = Except.ok { cols := ["b", "a", "$freq"],
                    rows := [{ values := ["0", "1"], freq := 700 },
                             { values := ["1", "0"], freq := 324 }] } := by
  rfl

lemma buildOutDictAux_overlong (names : List String) :
    ∀ (counts : List (String × Nat)) (d : OutDict),
      (∃ p ∈ counts, names.length < (pySplitSpace p.1).length) →
      buildOutDictAux names d counts = Except.error PyError.indexError := by
  intro counts
  induction counts with
  | nil => intro d h; simp at h
  | cons e rest ih =>
    intro d h
    by_cases hbad : names.length < (pySplitSpace e.1).length
    · have hstep : processEntry names d e = Except.error PyError.indexError := by
        simp [processEntry, hbad]
      simp only [buildOutDictAux, hstep]
    · obtain ⟨p, hp, hlt⟩ := h
      have hp' : p ∈ rest := by
        rcases List.mem_cons.mp hp with rfl | h'
        · omega
        · exact h'
      have hstep : processEntry names d e
          = Except.ok ⟨appendAt d.cols (pySplitSpace e.1).reverse, d.freq ++ [e.2]⟩ := by
        simp [processEntry, hbad]
      simp only [buildOutDictAux, hstep]
      exact ih _ ⟨p, hp', hlt⟩

/-- C10: whenever some key of the counts mapping splits on spaces into
more substrings than there are register names, the per-key loop indexes
`registers_names` past its end, so `organize_qiskit_result` raises
`IndexError` instead of returning a table. -/
theorem organize_overlong_key_raises (counts : List (String × Nat)) (names : List String)
    (h : ∃ p ∈ counts, names.length < (pySplitSpace p.1).length) :
    organize_qiskit_result counts names = Except.error PyError.indexError := by
  have hb := buildOutDictAux_overlong names counts (initOutDict names) h
  simp [organize_qiskit_result, buildOutDict, hb]

/-- Witness for C10: the key `"0 1 1"` splits into three substrings but
there is a single register name. -/
theorem organize_overlong_key_raises_witness :
    (∃ p ∈ ([("0 1 1", 5)] : List (String × Nat)),
        (["a"] : List String).length < (pySplitSpace p.1).length)
    ∧ organize_qiskit_result [("0 1 1", 5)] ["a"] = Except.error PyError.indexError :=
  ⟨by decide, organize_overlong_key_raises [("0 1 1", 5)] ["a"] (by decide)⟩
